import Mathlib

/-!
Verification development for `make_thumbs.py`, a batch thumbnail generator.

The script is embedded shallowly:

* `Path` models `pathlib.Path` (a list of components; `suffix`, `stem`,
  `with_suffix` follow pathlib's last-dot rules).
* `PILImage` models a decoded image at the level the script observes it:
  color mode, pixel dimensions, EXIF orientation tag.  `PILImage.thumbnail`
  follows Pillow's `Image.thumbnail` aspect-rounding (exact rational
  arithmetic stands in for floats), `convert_mode`, `save_image`,
  `resize_fit`, `process_image` and the `main` loop are translated line by
  line from the script.
* `FState` models the filesystem: a partial map from paths to files (an
  mtime plus the image the file decodes to, or a decode failure), plus a map
  of paths whose writes fail.  Python exceptions inside the per-file `try:`
  are modelled with `Except`, carrying the filesystem state at raise time.
* `Heap` gives an object-identity semantics for `resize_fit` (PIL's
  `thumbnail` mutates in place; `resize_fit` copies first), used to verify
  the no-mutation claim.
-/

namespace MakeThumbs

/-- Lowercase one character: ASCII `A`-`Z` maps to `a`-`z` (what Python's
`str.lower` does on the ASCII extensions the script compares). -/
def charLower (c : Char) : Char :=
  if 65 ≤ c.toNat ∧ c.toNat ≤ 90 then Char.ofNat (c.toNat + 32) else c

/-- Lowercase a string character by character (`str.lower`). -/
def strLower (s : String) : String := String.mk (s.data.map charLower)

/-- Split a character list at its last dot: `some (before, after)` with the
dot removed, or `none` when no dot occurs. -/
def splitLastDot : List Char → Option (List Char × List Char)
  | [] => none
  | c :: rest =>
    match splitLastDot rest with
    | some (b, a) => some (c :: b, a)
    | none => if c = '.' then some ([], rest) else none

/-- `pathlib`'s suffix of a file name: the part from the last dot on, unless
the last dot is the first or the last character of the name. -/
def nameSuffix (name : String) : String :=
  match splitLastDot name.data with
  | some (b, a) => if b ≠ [] ∧ a ≠ [] then String.mk ('.' :: a) else ""
  | none => ""

/-- `pathlib`'s stem of a file name: the name with `nameSuffix` removed. -/
def nameStem (name : String) : String :=
  match splitLastDot name.data with
  | some (b, a) => if b ≠ [] ∧ a ≠ [] then String.mk b else name
  | none => name

/-- A filesystem path: a list of components, as in `pathlib.Path`. -/
structure Path where
  parts : List String
deriving DecidableEq

/-- `Path.name`: the final component. -/
def Path.name (p : Path) : String := p.parts.getLastD ""

/-- `Path.suffix`: extension of the final component. -/
def Path.suffix (p : Path) : String := nameSuffix p.name

/-- `Path.stem`: final component without its extension. -/
def Path.stem (p : Path) : String := nameStem p.name

/-- The `/` operator on paths: append one component. -/
def Path.child (p : Path) (s : String) : Path := ⟨p.parts ++ [s]⟩

/-- `Path.with_suffix`: replace the extension of the final component. -/
def Path.with_suffix (p : Path) (suf : String) : Path :=
  ⟨p.parts.dropLast ++ [nameStem p.name ++ suf]⟩

/-- `is_image` (line 26): extension allow-list, case-insensitive. -/
def is_image (p : Path) : Bool :=
  decide (strLower p.suffix ∈
    [".jpg", ".jpeg", ".png", ".webp", ".heic", ".heif", ".tif", ".tiff"])

/-- A decoded PIL image, at the granularity the script inspects: color mode,
pixel dimensions and the EXIF orientation tag (1 = upright). -/
structure PILImage where
  mode : String
  width : Nat
  height : Nat
  orientation : Nat := 1
deriving DecidableEq

/-- `Image.convert`: reencode the pixel data in the given mode. -/
def PILImage.convert (img : PILImage) (m : String) : PILImage := { img with mode := m }

/-- `convert_mode` (lines 29-34). -/
def convert_mode (img : PILImage) : PILImage :=
  if img.mode ∈ ["P", "LA", "RGBA", "CMYK", "P;16", "I;16"] then img.convert "RGB"
  else if img.mode = "L" then img.convert "RGB"
  else img

/-- `ImageOps.exif_transpose`: orientations 5-8 swap width and height,
orientations 2-4 flip/rotate in place; the handled tags are reset to 1. -/
def exif_transpose (img : PILImage) : PILImage :=
  if img.orientation ∈ [5, 6, 7, 8] then
    { img with width := img.height, height := img.width, orientation := 1 }
  else if img.orientation ∈ [2, 3, 4] then
    { img with orientation := 1 }
  else img

/-- Pillow's `round_aspect` helper inside `Image.thumbnail`:
`max(min(floor(number), ceil(number), key=key), 1)`, where Python's `min`
returns the first argument on ties. -/
def roundAspect (number : ℚ) (key : ℤ → ℚ) : ℤ :=
  max (if key ⌊number⌋ ≤ key ⌈number⌉ then ⌊number⌋ else ⌈number⌉) 1

/-- Pillow's `Image.thumbnail(size, ...)` specialised to the square size
`(max_px, max_px)` that `resize_fit` passes: no change when the image already
fits; otherwise the long side becomes `max_px` and the short side is rounded
from the exact aspect ratio.  Exact rationals stand in for Python floats. -/
def PILImage.thumbnail (img : PILImage) (max_px : Nat) : PILImage :=
  if max_px ≥ img.width ∧ max_px ≥ img.height then img
  else
    let aspect : ℚ := (img.width : ℚ) / (img.height : ℚ)
    if (max_px : ℚ) / (max_px : ℚ) ≥ aspect then
      let x := roundAspect ((max_px : ℚ) * aspect)
        (fun n => |aspect - (n : ℚ) / (max_px : ℚ)|)
      { img with width := x.toNat, height := max_px }
    else
      let y := roundAspect ((max_px : ℚ) / aspect)
        (fun n => if n = 0 then 0 else |aspect - (max_px : ℚ) / (n : ℚ)|)
      { img with width := max_px, height := y.toNat }

/-- `Image.copy`: a fresh image with the same pixel data (value level). -/
def PILImage.copy (img : PILImage) : PILImage := img

/-- `resize_fit` (lines 53-56), value level: copy, then thumbnail the copy. -/
def resize_fit (img : PILImage) (max_px : Nat) : PILImage :=
  let im := img.copy
  let im := im.thumbnail max_px
  im

/-- Keyword arguments the script passes to `Image.save`. -/
structure SaveKwargs where
  quality : Option Nat := none
  optimize : Bool := false
  progressive : Bool := false
  compress_level : Option Nat := none
  method : Option Nat := none
deriving DecidableEq

/-- `save_image` (lines 36-51), pure part: from the image and requested
output path, the image actually encoded (mode-normalised on the JPEG
branches), the path actually written (`.jpg` fallback for unknown
extensions) and the encoder settings; `save_image` returns the final
`out_path`. -/
def save_image (img : PILImage) (out_path : Path) : PILImage × Path × SaveKwargs :=
  let ext := strLower out_path.suffix
  if ext = ".jpg" ∨ ext = ".jpeg" then
    (convert_mode img, out_path,
      { quality := some 82, optimize := true, progressive := true })
  else if ext = ".png" then
    (img, out_path, { optimize := true, compress_level := some 6 })
  else if ext = ".webp" then
    (img, out_path, { quality := some 82, method := some 6 })
  else
    (convert_mode img, out_path.with_suffix ".jpg",
      { quality := some 82, optimize := true, progressive := true })

deriving instance DecidableEq for Except

/-- A file on disk: its modification time and what decoding it yields (an
image, or the message of the exception decoding raises). -/
structure File where
  mtime : Int
  image : Except String PILImage
deriving DecidableEq

/-- Filesystem state: the files present, plus the paths at which a write
raises (with the exception's message). -/
structure FState where
  files : Path → Option File
  saveFails : Path → Option String

/-- `Path.exists()`. -/
def FState.pexists (fs : FState) (p : Path) : Bool := (fs.files p).isSome

/-- `Path.stat().st_mtime`; only meaningful when the file exists (Python
would raise otherwise, and the script only calls it behind `exists()`). -/
def FState.mtimeD (fs : FState) (p : Path) : Int :=
  match fs.files p with
  | some f => f.mtime
  | none => 0

/-- One conjunct of the freshness test (lines 69-70):
`out.exists() and out.stat().st_mtime >= src_mtime`. -/
def FState.isFreshB (fs : FState) (p : Path) (srcMtime : Int) : Bool :=
  fs.pexists p && decide (fs.mtimeD p ≥ srcMtime)

/-- Writing a file sets its content and stamps the current time. -/
def FState.write (fs : FState) (p : Path) (now : Int) (img : PILImage) : FState :=
  { fs with files := fun q => if q = p then some ⟨now, Except.ok img⟩ else fs.files q }

/-- `save_image` including the actual `img.save` call: computes the real
output path and encoded image, then writes, raising when the filesystem
rejects the write at that path. -/
def save_fs (fs : FState) (now : Int) (img : PILImage) (out_path : Path) :
    Except String (Path × FState) :=
  let r := save_image img out_path
  match fs.saveFails r.2.1 with
  | some m => Except.error m
  | none => Except.ok (r.2.1, fs.write r.2.1 now r.1)

/-- The tuple of supported output extensions at line 63. -/
def supportedOut : List String := [".jpg", ".jpeg", ".png", ".webp"]

/-- `out_ext` (lines 62-63): the input extension lowercased when supported,
else `.jpg`. -/
def out_ext_of (in_path : Path) : String :=
  let ext := strLower in_path.suffix
  if ext ∈ supportedOut then ext else ".jpg"

/-- `small_out` (line 65). -/
def small_out_of (small_dir : Path) (in_path : Path) : Path :=
  small_dir.child (in_path.stem ++ out_ext_of in_path)

/-- `large_out` (line 66). -/
def large_out_of (large_dir : Path) (in_path : Path) : Path :=
  large_dir.child (in_path.stem ++ out_ext_of in_path)

/-- Message of the exception `Image.open` raises when the path is absent or
undecodable at the filesystem level. -/
def openErr (n : String) : String := "cannot identify image file " ++ n

/-- Per-file processing outcome (the tuples returned at lines 71, 78, 80). -/
inductive Outcome where
  | ok (src small large : String)
  | skipped (src : String)
  | error (src msg : String)
deriving DecidableEq

/-- Whether an outcome is the `error` kind (what `results["error"]` counts). -/
def Outcome.isErr : Outcome → Bool
  | Outcome.error _ _ => true
  | _ => false

/-- Lines 73-77: resize both derivatives and save them; an exception carries
the filesystem state at raise time (the first write may already have
happened). -/
def writePhase (fs : FState) (now : Int) (in_path : Path) (im0 : PILImage)
    (small_out large_out : Path) (max_small max_large : Nat) :
    Except (String × FState) (Outcome × FState) :=
  let small_im := resize_fit im0 max_small
  let large_im := resize_fit im0 max_large
  match save_fs fs now small_im small_out with
  | Except.error m => Except.error (m, fs)
  | Except.ok r1 =>
    match save_fs r1.2 now large_im large_out with
    | Except.error m => Except.error (m, r1.2)
    | Except.ok r2 => Except.ok (Outcome.ok in_path.name r1.1.name r2.1.name, r2.2)

/-- The `try:` block of `process_image` (lines 59-78): open and
EXIF-transpose the source, compute the two output paths, skip when both are
fresh, else resize and save both. -/
def process_image_try (fs : FState) (now : Int) (in_path small_dir large_dir : Path)
    (max_small max_large : Nat) : Except (String × FState) (Outcome × FState) :=
  match fs.files in_path with
  | none => Except.error (openErr in_path.name, fs)
  | some f =>
    match f.image with
    | Except.error m => Except.error (m, fs)
    | Except.ok im =>
      let im0 := exif_transpose im
      let small_out := small_out_of small_dir in_path
      let large_out := large_out_of large_dir in_path
      if fs.isFreshB small_out f.mtime && fs.isFreshB large_out f.mtime then
        Except.ok (Outcome.skipped in_path.name, fs)
      else
        writePhase fs now in_path im0 small_out large_out max_small max_large

/-- `process_image` (lines 58-80): the `try:` block with its
`except Exception` handler, which converts any exception into an `error`
outcome carrying the source file's name and the exception's message. -/
def process_image (fs : FState) (now : Int) (in_path small_dir large_dir : Path)
    (max_small max_large : Nat) : Outcome × FState :=
  match process_image_try fs now in_path small_dir large_dir max_small max_large with
  | Except.ok r => r
  | Except.error e => (Outcome.error in_path.name e.1, e.2)

/-- The batch loop of `main` (lines 99-102): process every scanned file in
order, collecting one outcome per file. -/
def main_loop (fs : FState) (now : Int) (imgs : List Path) (small_dir large_dir : Path)
    (max_small max_large : Nat) : List Outcome × FState :=
  match imgs with
  | [] => ([], fs)
  | p :: rest =>
    let r := process_image fs now p small_dir large_dir max_small max_large
    let rr := main_loop r.2 now rest small_dir large_dir max_small max_large
    (r.1 :: rr.1, rr.2)

/-- A heap of PIL image objects, to express object identity and in-place
mutation: `objs` maps references to current pixel data, `next` is the next
fresh reference. -/
structure Heap where
  objs : Nat → PILImage
  next : Nat

/-- `img.copy()` on the heap: allocate a fresh object with the same data. -/
def Heap.copyObj (h : Heap) (r : Nat) : Heap × Nat :=
  (⟨fun i => if i = h.next then h.objs r else h.objs i, h.next + 1⟩, h.next)

/-- `im.thumbnail(...)` on the heap: mutate the object `r` in place. -/
def Heap.thumbnailIP (h : Heap) (r : Nat) (max_px : Nat) : Heap :=
  ⟨fun i => if i = r then (h.objs r).thumbnail max_px else h.objs i, h.next⟩

/-- `resize_fit` (lines 53-56) on the heap: copy the argument object, then
thumbnail the copy in place, returning the copy's reference. -/
def resize_fit_obj (h : Heap) (img : Nat) (max_px : Nat) : Heap × Nat :=
  let c := h.copyObj img
  (c.1.thumbnailIP c.2 max_px, c.2)

/-- Lines 73-74 of `process_image`: both derivative resizes from the one
loaded image `im0`. -/
def derive_both (h : Heap) (im0 : Nat) (max_small max_large : Nat) : Heap × Nat × Nat :=
  let s := resize_fit_obj h im0 max_small
  let l := resize_fit_obj s.1 im0 max_large
  (l.1, s.2, l.2)

/-- The freshness precondition of the skip branch of `process_image`,
together with the source file being present and decodable: both computed
output paths exist and are at least as new as the source. -/
def Fresh (fs : FState) (sd ld p : Path) : Prop :=
  ∃ f im g g', fs.files p = some f ∧ f.image = Except.ok im ∧
    fs.files (small_out_of sd p) = some g ∧ f.mtime ≤ g.mtime ∧
    fs.files (large_out_of ld p) = some g' ∧ f.mtime ≤ g'.mtime

/-! ### Concrete sample states, used to instantiate the theorems -/

def smallDir : Path := ⟨["images", "small"]⟩

def largeDir : Path := ⟨["images", "large"]⟩

/-- An undecodable source file whose two outputs exist and are fresh. -/
def badSrc : Path := ⟨["images", "c.jpg"]⟩

def badFs : FState where
  files := fun q =>
    if q = badSrc then some ⟨3, Except.error "broken data"⟩
    else if q = ⟨["images", "small", "c.jpg"]⟩ then
      some ⟨7, Except.ok ⟨"RGB", 100, 100, 1⟩⟩
    else if q = ⟨["images", "large", "c.jpg"]⟩ then
      some ⟨7, Except.ok ⟨"RGB", 200, 200, 1⟩⟩
    else none
  saveFails := fun _ => none

/-- A decodable source file whose two outputs exist and are fresh. -/
def freshSrc : Path := ⟨["images", "a.jpg"]⟩

def freshFs : FState where
  files := fun q =>
    if q = freshSrc then some ⟨3, Except.ok ⟨"RGB", 3000, 2000, 1⟩⟩
    else if q = ⟨["images", "small", "a.jpg"]⟩ then
      some ⟨7, Except.ok ⟨"RGB", 1200, 800, 1⟩⟩
    else if q = ⟨["images", "large", "a.jpg"]⟩ then
      some ⟨8, Except.ok ⟨"RGB", 2400, 1600, 1⟩⟩
    else none
  saveFails := fun _ => none

/-- A state holding only the decodable source file, before any run. -/
def startFs : FState where
  files := fun q =>
    if q = freshSrc then some ⟨3, Except.ok ⟨"RGB", 3000, 2000, 1⟩⟩ else none
  saveFails := fun _ => none

/-! ### Facts about pathlib suffix/stem arithmetic -/

theorem splitLastDot_eq_none (cs : List Char) (hnd : '.' ∉ cs) :
    splitLastDot cs = none := by
  induction cs with
  | nil => rfl
  | cons c rest ih =>
    simp only [List.mem_cons, not_or] at hnd
    unfold splitLastDot
    rw [ih hnd.2, if_neg (fun hc => hnd.1 hc.symm)]

theorem splitLastDot_append (s t : List Char) (ht : '.' ∉ t) :
    splitLastDot (s ++ '.' :: t) = some (s, t) := by
  induction s with
  | nil =>
    rw [List.nil_append]
    unfold splitLastDot
    rw [splitLastDot_eq_none t ht]
    simp
  | cons c s ih =>
    rw [List.cons_append]
    unfold splitLastDot
    rw [ih]

/-- Appending a dot-free extension `'.' :: t` to a nonempty stem gives a name
whose pathlib suffix is exactly that extension and whose stem is the
original string. -/
theorem nameSuffix_append_ext (s : String) (t : List Char) (hs : s ≠ "")
    (ht : '.' ∉ t) (htne : t ≠ []) :
    nameSuffix (s ++ String.mk ('.' :: t)) = String.mk ('.' :: t) ∧
    nameStem (s ++ String.mk ('.' :: t)) = s := by
  obtain ⟨sd⟩ := s
  have hd : (String.mk sd ++ String.mk ('.' :: t)).data = sd ++ '.' :: t := rfl
  have hsd : sd ≠ [] := fun hc => hs (by rw [hc])
  constructor
  · unfold nameSuffix
    rw [hd, splitLastDot_append sd t ht]
    dsimp only
    rw [if_pos (show sd ≠ [] ∧ t ≠ [] from ⟨hsd, htne⟩)]
  · unfold nameStem
    rw [hd, splitLastDot_append sd t ht]
    dsimp only
    rw [if_pos (show sd ≠ [] ∧ t ≠ [] from ⟨hsd, htne⟩)]

/-- Specialisation to the four supported output extensions. -/
theorem out_name_parts (s e : String) (hs : s ≠ "") (he : e ∈ supportedOut) :
    nameSuffix (s ++ e) = e ∧ nameStem (s ++ e) = s := by
  unfold supportedOut at he
  simp only [List.mem_cons, List.not_mem_nil, or_false] at he
  rcases he with rfl | rfl | rfl | rfl
  · exact nameSuffix_append_ext s ['j', 'p', 'g'] hs (by decide) (by decide)
  · exact nameSuffix_append_ext s ['j', 'p', 'e', 'g'] hs (by decide) (by decide)
  · exact nameSuffix_append_ext s ['p', 'n', 'g'] hs (by decide) (by decide)
  · exact nameSuffix_append_ext s ['w', 'e', 'b', 'p'] hs (by decide) (by decide)

theorem nameStem_ne_empty (n : String) (hn : n ≠ "") : nameStem n ≠ "" := by
  unfold nameStem
  cases hsp : splitLastDot n.data with
  | none => exact hn
  | some ba =>
    obtain ⟨b, a⟩ := ba
    dsimp only
    split_ifs with hba
    · intro hcon
      exact hba.1 (congrArg String.data hcon)
    · exact hn

theorem Path.child_name (p : Path) (s : String) : (Path.child p s).name = s := by
  unfold Path.child Path.name
  dsimp only
  rw [List.getLastD_eq_getLast?, List.getLast?_concat]
  rfl

theorem out_ext_mem (p : Path) : out_ext_of p ∈ supportedOut := by
  unfold out_ext_of
  dsimp only
  split_ifs with hx
  · exact hx
  · unfold supportedOut
    simp

theorem out_ext_lower (p : Path) : strLower (out_ext_of p) = out_ext_of p := by
  have hm := out_ext_mem p
  unfold supportedOut at hm
  simp only [List.mem_cons, List.not_mem_nil, or_false] at hm
  rcases hm with he | he | he | he <;> rw [he] <;> decide

/-- The computed output paths: suffix is `out_ext`, stem is the input stem. -/
theorem out_path_parts (dir p : Path) (hp : p.name ≠ "") :
    (Path.child dir (p.stem ++ out_ext_of p)).suffix = out_ext_of p ∧
    (Path.child dir (p.stem ++ out_ext_of p)).stem = p.stem := by
  have hs : p.stem ≠ "" := nameStem_ne_empty p.name hp
  have hout := out_name_parts p.stem (out_ext_of p) hs (out_ext_mem p)
  unfold Path.suffix Path.stem
  rw [Path.child_name]
  exact hout

/-- The `.jpg` fallback of `save_image` always moves to a different path. -/
theorem with_suffix_jpg_ne (q : Path) (hq : strLower q.suffix ∉ supportedOut) :
    Path.with_suffix q ".jpg" ≠ q := by
  unfold Path.with_suffix
  intro hcon
  have hparts : q.parts.dropLast ++ [nameStem q.name ++ ".jpg"] = q.parts :=
    congrArg Path.parts hcon
  rcases List.eq_nil_or_concat q.parts with hnil | ⟨init, last, hsp⟩
  · rw [hnil] at hparts
    simp at hparts
  · rw [List.concat_eq_append] at hsp
    rw [hsp, List.dropLast_concat] at hparts
    have hname : q.name = last := by
      unfold Path.name
      rw [hsp, List.getLastD_eq_getLast?, List.getLast?_concat]
      rfl
    have hlast : nameStem q.name ++ ".jpg" = last := by
      have := List.append_cancel_left hparts
      simpa using this
    have hstem_ne : nameStem q.name ≠ "" := by
      intro hzero
      rw [hzero] at hlast
      have hlast' : last = ".jpg" := by
        rw [← hlast]
        rfl
      rw [hname, hlast'] at hzero
      exact absurd hzero (by decide)
    have hsfx : nameSuffix (nameStem q.name ++ ".jpg") = ".jpg" :=
      (out_name_parts (nameStem q.name) ".jpg" hstem_ne (by unfold supportedOut; simp)).1
    rw [hlast] at hsfx
    apply hq
    unfold Path.suffix
    rw [hname, hsfx]
    decide

/-! ### Facts about Pillow's aspect rounding -/

theorem roundAspect_one_le (x : ℚ) (k : ℤ → ℚ) : 1 ≤ roundAspect x k :=
  le_max_right _ _

theorem roundAspect_le (x : ℚ) (k : ℤ → ℚ) (B : ℤ) (hB : 1 ≤ B) (hx : x ≤ (B : ℚ)) :
    roundAspect x k ≤ B := by
  unfold roundAspect
  apply max_le _ hB
  split
  · exact le_trans (Int.floor_le_ceil x) (Int.ceil_le.mpr hx)
  · exact Int.ceil_le.mpr hx

theorem roundAspect_close (x : ℚ) (k : ℤ → ℚ) (hx : 0 < x) :
    |((roundAspect x k : ℤ) : ℚ) - x| ≤ 1 := by
  unfold roundAspect
  rcases le_or_lt 1 ⌊x⌋ with h1 | h1
  · have hc : 1 ≤ ⌈x⌉ := le_trans h1 (Int.floor_le_ceil x)
    have h2 : (⌊x⌋ : ℚ) ≤ x := Int.floor_le x
    have h3 : x < (⌊x⌋ : ℚ) + 1 := Int.lt_floor_add_one x
    have h4 : x ≤ (⌈x⌉ : ℚ) := Int.le_ceil x
    have h5 : (⌈x⌉ : ℚ) < x + 1 := Int.ceil_lt_add_one x
    split
    · rw [max_eq_left h1, abs_le]
      constructor <;> linarith
    · rw [max_eq_left hc, abs_le]
      constructor <;> linarith
  · have hf0 : ⌊x⌋ ≤ 0 := by omega
  -- here the exact value is below 1, and the result is clamped to 1
    have hfq : (⌊x⌋ : ℚ) ≤ 0 := by exact_mod_cast hf0
    have hxlt : x < 1 := by
      have := Int.lt_floor_add_one x
      linarith
    have hceil : ⌈x⌉ = 1 := by
      have hp : 0 < ⌈x⌉ := Int.ceil_pos.mpr hx
      have hle : ⌈x⌉ ≤ 1 := by
        rw [Int.ceil_le]
        push_cast
        linarith
      omega
    have habs : |(1 : ℚ) - x| ≤ 1 := by
      rw [abs_le]
      constructor <;> linarith
    split
    · rw [max_eq_right (by omega : ⌊x⌋ ≤ 1)]
      exact_mod_cast habs
    · rw [hceil]
      simpa using habs

/-- C7: an image already smaller than the maximum dimension `N` in both
width and height is returned by `resize_fit` with identical pixel
dimensions: no upscaling ever occurs. -/
theorem resize_fit_no_upscale (img : PILImage) (N : Nat)
    (hw : img.width < N) (hh : img.height < N) :
    (resize_fit img N).width = img.width ∧ (resize_fit img N).height = img.height := by
  unfold resize_fit PILImage.copy PILImage.thumbnail
  dsimp only
  rw [if_pos ⟨Nat.le_of_lt hw, Nat.le_of_lt hh⟩]
  exact ⟨rfl, rfl⟩

theorem resize_fit_no_upscale_witness :
    500 < 1200 ∧ 300 < 1200 ∧
    (resize_fit ⟨"RGBA", 500, 300, 1⟩ 1200).width = 500 ∧
    (resize_fit ⟨"RGBA", 500, 300, 1⟩ 1200).height = 300 :=
  ⟨by decide, by decide,
    (resize_fit_no_upscale ⟨"RGBA", 500, 300, 1⟩ 1200 (by decide) (by decide)).1,
    (resize_fit_no_upscale ⟨"RGBA", 500, 300, 1⟩ 1200 (by decide) (by decide)).2⟩

/-- C3: when the source's longest edge is at least `N`, `resize_fit` returns
an image whose longest edge is at most `N`, and the shorter edge is within
one pixel of the exactly scaled value (aspect ratio preserved up to 1-pixel
rounding). -/
theorem resize_fit_bounds (img : PILImage) (N : Nat)
    (hw : 1 ≤ img.width) (hh : 1 ≤ img.height) (hN : 1 ≤ N)
    (hlong : N ≤ max img.width img.height) :
    max (resize_fit img N).width (resize_fit img N).height ≤ N ∧
    (img.width ≤ img.height →
      |((resize_fit img N).width : ℚ) - (N : ℚ) * img.width / img.height| ≤ 1) ∧
    (img.height ≤ img.width →
      |((resize_fit img N).height : ℚ) - (N : ℚ) * img.height / img.width| ≤ 1) := by
  obtain ⟨m, w, h, o⟩ := img
  dsimp only at hw hh hlong ⊢
  have hw0 : (0 : ℚ) < w := by exact_mod_cast hw
  have hh0 : (0 : ℚ) < h := by exact_mod_cast hh
  have hN0 : (0 : ℚ) < N := by exact_mod_cast hN
  unfold resize_fit PILImage.copy PILImage.thumbnail
  dsimp only
  by_cases hfit : N ≥ w ∧ N ≥ h
  · -- the source already fits: it is returned unchanged, and the hypothesis
    -- on the longest edge forces that edge to equal N exactly
    rw [if_pos hfit]
    dsimp only
    refine ⟨max_le hfit.1 hfit.2, ?_, ?_⟩
    · intro hwh
      have hhN : h = N := le_antisymm hfit.2 (hlong.trans_eq (max_eq_right hwh))
      subst hhN
      have e : (h : ℚ) * w / h = (w : ℚ) := by field_simp
      rw [e]
      simp
    · intro hhw
      have hwN : w = N := le_antisymm hfit.1 (hlong.trans_eq (max_eq_left hhw))
      subst hwN
      have e : (w : ℚ) * h / w = (h : ℚ) := by field_simp
      rw [e]
      simp
  · rw [if_neg hfit]
    have hNN : (N : ℚ) / (N : ℚ) = 1 := div_self (ne_of_gt hN0)
    by_cases hc : (N : ℚ) / (N : ℚ) ≥ (w : ℚ) / (h : ℚ)
    · -- portrait or square: height pinned to N, width rounded
      rw [if_pos hc]
      dsimp only
      rw [hNN] at hc
      have hwh : w ≤ h := by exact_mod_cast (div_le_one hh0).mp hc
      have hxpos : 0 < (N : ℚ) * ((w : ℚ) / (h : ℚ)) := by positivity
      have hxle : (N : ℚ) * ((w : ℚ) / (h : ℚ)) ≤ ((N : ℤ) : ℚ) := by
        push_cast
        calc (N : ℚ) * ((w : ℚ) / (h : ℚ)) ≤ (N : ℚ) * 1 :=
              mul_le_mul_of_nonneg_left hc (le_of_lt hN0)
        _ = (N : ℚ) := mul_one _
      have hrle : ∀ k : ℤ → ℚ, roundAspect ((N : ℚ) * ((w : ℚ) / (h : ℚ))) k ≤ (N : ℤ) :=
        fun k => roundAspect_le _ k (N : ℤ) (by exact_mod_cast hN) hxle
      refine ⟨max_le (Int.toNat_le.mpr (hrle _)) le_rfl, ?_, ?_⟩
      · intro _
        have h1 : (0 : ℤ) ≤ roundAspect ((N : ℚ) * ((w : ℚ) / (h : ℚ)))
            (fun n => |(w : ℚ) / (h : ℚ) - (n : ℚ) / (N : ℚ)|) :=
          le_trans zero_le_one (roundAspect_one_le _ _)
        rw [show (((roundAspect ((N : ℚ) * ((w : ℚ) / (h : ℚ)))
            (fun n => |(w : ℚ) / (h : ℚ) - (n : ℚ) / (N : ℚ)|)).toNat : ℕ) : ℚ)
            = ((roundAspect ((N : ℚ) * ((w : ℚ) / (h : ℚ)))
            (fun n => |(w : ℚ) / (h : ℚ) - (n : ℚ) / (N : ℚ)|) : ℤ) : ℚ) from by
          exact_mod_cast congrArg (fun z : ℤ => (z : ℚ)) (Int.toNat_of_nonneg h1)]
        rw [show (N : ℚ) * (w : ℚ) / (h : ℚ) = (N : ℚ) * ((w : ℚ) / (h : ℚ)) from
          mul_div_assoc _ _ _]
        exact roundAspect_close _ _ hxpos
      · intro hhw
        have hwe : w = h := le_antisymm hwh hhw
        subst hwe
        have e : (N : ℚ) * w / w = (N : ℚ) := by field_simp
        rw [e]
        simp
    · -- landscape: width pinned to N, height rounded
      rw [if_neg hc]
      dsimp only
      rw [hNN] at hc
      have hhw : h < w := by
        have h1 : (1 : ℚ) < (w : ℚ) / (h : ℚ) := lt_of_not_ge hc
        exact_mod_cast (one_lt_div hh0).mp h1
      have harg : (N : ℚ) / ((w : ℚ) / (h : ℚ)) = (N : ℚ) * (h : ℚ) / (w : ℚ) :=
        div_div_eq_mul_div _ _ _
      have hw0' : (0 : ℚ) < w := hw0
      have hxpos : 0 < (N : ℚ) / ((w : ℚ) / (h : ℚ)) := by
        rw [harg]; positivity
      have hxle : (N : ℚ) / ((w : ℚ) / (h : ℚ)) ≤ ((N : ℤ) : ℚ) := by
        rw [harg]
        push_cast
        rw [mul_div_assoc]
        calc (N : ℚ) * ((h : ℚ) / (w : ℚ)) ≤ (N : ℚ) * 1 := by
              apply mul_le_mul_of_nonneg_left _ (le_of_lt hN0)
              exact le_of_lt ((div_lt_one hw0').mpr (by exact_mod_cast hhw))
        _ = (N : ℚ) := mul_one _
      have hrle : ∀ k : ℤ → ℚ, roundAspect ((N : ℚ) / ((w : ℚ) / (h : ℚ))) k ≤ (N : ℤ) :=
        fun k => roundAspect_le _ k (N : ℤ) (by exact_mod_cast hN) hxle
      refine ⟨max_le le_rfl (Int.toNat_le.mpr (hrle _)), ?_, ?_⟩
      · intro hwh
        exact absurd hwh (by omega)
      · intro _
        have h1 : (0 : ℤ) ≤ roundAspect ((N : ℚ) / ((w : ℚ) / (h : ℚ)))
            (fun n => if n = 0 then 0 else |(w : ℚ) / (h : ℚ) - (N : ℚ) / (n : ℚ)|) :=
          le_trans zero_le_one (roundAspect_one_le _ _)
        rw [show (((roundAspect ((N : ℚ) / ((w : ℚ) / (h : ℚ)))
            (fun n => if n = 0 then 0 else |(w : ℚ) / (h : ℚ) - (N : ℚ) / (n : ℚ)|)).toNat
              : ℕ) : ℚ)
            = ((roundAspect ((N : ℚ) / ((w : ℚ) / (h : ℚ)))
            (fun n => if n = 0 then 0 else |(w : ℚ) / (h : ℚ) - (N : ℚ) / (n : ℚ)|) : ℤ) : ℚ)
            from by
          exact_mod_cast congrArg (fun z : ℤ => (z : ℚ)) (Int.toNat_of_nonneg h1)]
        rw [show (N : ℚ) * (h : ℚ) / (w : ℚ) = (N : ℚ) / ((w : ℚ) / (h : ℚ)) from harg.symm]
        exact roundAspect_close _ _ hxpos

theorem resize_fit_bounds_witness :
    1 ≤ 3000 ∧ 1 ≤ 2000 ∧ 1 ≤ 1200 ∧ 1200 ≤ max 3000 2000 ∧
    (max (resize_fit ⟨"RGB", 3000, 2000, 1⟩ 1200).width
        (resize_fit ⟨"RGB", 3000, 2000, 1⟩ 1200).height ≤ 1200 ∧
      ((3000 : Nat) ≤ 2000 →
        |((resize_fit ⟨"RGB", 3000, 2000, 1⟩ 1200).width : ℚ)
          - (1200 : ℚ) * 3000 / 2000| ≤ 1) ∧
      ((2000 : Nat) ≤ 3000 →
        |((resize_fit ⟨"RGB", 3000, 2000, 1⟩ 1200).height : ℚ)
          - (1200 : ℚ) * 2000 / 3000| ≤ 1)) := by
  refine ⟨by decide, by decide, by decide, by decide, ?_⟩
  have := resize_fit_bounds ⟨"RGB", 3000, 2000, 1⟩ 1200
    (by decide) (by decide) (by decide) (by decide)
  exact this

/-- C9: `resize_fit` never mutates its argument object: it thumbnails a
fresh copy.  Hence in `process_image` the loaded image `im0` is unchanged by
the first (small) resize when the second (large) resize reads it, and both
derivatives are computed from the same decoded pixel data. -/
theorem resize_fit_no_mutation (h : Heap) (ref max_small max_large : Nat)
    (href : ref < h.next) :
    (resize_fit_obj h ref max_small).1.objs ref = h.objs ref ∧
    (derive_both h ref max_small max_large).1.objs ref = h.objs ref ∧
    (derive_both h ref max_small max_large).1.objs
        (derive_both h ref max_small max_large).2.1
      = resize_fit (h.objs ref) max_small ∧
    (derive_both h ref max_small max_large).1.objs
        (derive_both h ref max_small max_large).2.2
      = resize_fit (h.objs ref) max_large := by
  have h1 : ref ≠ h.next := Nat.ne_of_lt href
  have h2 : ref ≠ h.next + 1 := by omega
  have h3 : h.next ≠ h.next + 1 := by omega
  unfold derive_both resize_fit_obj Heap.copyObj Heap.thumbnailIP resize_fit PILImage.copy
  dsimp only
  simp [h1, h2, h3]

theorem resize_fit_no_mutation_witness :
    (0 : Nat) < 1 ∧
    ((resize_fit_obj ⟨fun _ => ⟨"RGB", 30, 20, 1⟩, 1⟩ 0 12).1.objs 0 = ⟨"RGB", 30, 20, 1⟩ ∧
      (derive_both ⟨fun _ => ⟨"RGB", 30, 20, 1⟩, 1⟩ 0 12 24).1.objs 0 = ⟨"RGB", 30, 20, 1⟩ ∧
      (derive_both ⟨fun _ => ⟨"RGB", 30, 20, 1⟩, 1⟩ 0 12 24).1.objs
          (derive_both ⟨fun _ => ⟨"RGB", 30, 20, 1⟩, 1⟩ 0 12 24).2.1
        = resize_fit ⟨"RGB", 30, 20, 1⟩ 12 ∧
      (derive_both ⟨fun _ => ⟨"RGB", 30, 20, 1⟩, 1⟩ 0 12 24).1.objs
          (derive_both ⟨fun _ => ⟨"RGB", 30, 20, 1⟩, 1⟩ 0 12 24).2.2
        = resize_fit ⟨"RGB", 30, 20, 1⟩ 24) :=
  ⟨by decide, resize_fit_no_mutation ⟨fun _ => ⟨"RGB", 30, 20, 1⟩, 1⟩ 0 12 24 (by decide)⟩

/-- C5: `convert_mode` sends the modes P, LA, RGBA, CMYK, P;16, I;16 and L
to three-channel RGB, and `save_image` applies this normalization exactly on
the JPEG branches (`.jpg`/`.jpeg` extensions and the fallback for
unsupported extensions); `.png` and `.webp` outputs are encoded in the
image's native mode. -/
theorem convert_mode_jpeg_only (img : PILImage) (p : Path) :
    (img.mode ∈ ["P", "LA", "RGBA", "CMYK", "P;16", "I;16", "L"] →
      (convert_mode img).mode = "RGB") ∧
    (strLower p.suffix = ".jpg" ∨ strLower p.suffix = ".jpeg" ∨
        strLower p.suffix ∉ supportedOut →
      (save_image img p).1 = convert_mode img) ∧
    (strLower p.suffix = ".png" ∨ strLower p.suffix = ".webp" →
      (save_image img p).1 = img) := by
  refine ⟨?_, ?_, ?_⟩
  · intro hm
    obtain ⟨mo, w, hh, o⟩ := img
    dsimp only at hm ⊢
    simp only [List.mem_cons, List.not_mem_nil, or_false] at hm
    unfold convert_mode PILImage.convert
    rcases hm with rfl | rfl | rfl | rfl | rfl | rfl | rfl <;> simp
  · intro hext
    unfold save_image
    dsimp only
    split_ifs with e1 e2 e3
    · rfl
    · exfalso
      rcases hext with hx | hx | hx
      · exact e1 (Or.inl hx)
      · exact e1 (Or.inr hx)
      · exact hx (by rw [e2]; unfold supportedOut; simp)
    · exfalso
      rcases hext with hx | hx | hx
      · exact e1 (Or.inl hx)
      · exact e1 (Or.inr hx)
      · exact hx (by rw [e3]; unfold supportedOut; simp)
    · rfl
  · intro hext
    unfold save_image
    dsimp only
    split_ifs with e1 e2 e3
    · exfalso
      rcases hext with hx | hx <;> rcases e1 with e | e <;> rw [hx] at e <;> simp at e
    · rfl
    · rfl
    · exfalso
      rcases hext with hx | hx
      · exact e2 hx
      · exact e3 hx

theorem convert_mode_jpeg_only_witness :
    (convert_mode ⟨"RGBA", 10, 10, 1⟩).mode = "RGB" ∧
    (save_image ⟨"RGBA", 10, 10, 1⟩ ⟨["images", "small", "x.tiff"]⟩).1
      = convert_mode ⟨"RGBA", 10, 10, 1⟩ ∧
    (save_image ⟨"RGBA", 10, 10, 1⟩ ⟨["images", "small", "b.png"]⟩).1
      = ⟨"RGBA", 10, 10, 1⟩ :=
  ⟨(convert_mode_jpeg_only ⟨"RGBA", 10, 10, 1⟩ ⟨["images", "small", "x.tiff"]⟩).1
      (by decide),
    (convert_mode_jpeg_only ⟨"RGBA", 10, 10, 1⟩ ⟨["images", "small", "x.tiff"]⟩).2.1
      (by decide),
    (convert_mode_jpeg_only ⟨"RGBA", 10, 10, 1⟩ ⟨["images", "small", "b.png"]⟩).2.2
      (by decide)⟩

/-- C8 (amended): both output paths keep the input file's stem; the output
extension is `out_ext`, which differs from the input's extension only by
lowercasing it (supported format) or by becoming `.jpg` (format unsupported
as output). -/
theorem output_stem_invariant (p sd ld : Path) (hp : p.name ≠ "") :
    (small_out_of sd p).stem = p.stem ∧ (large_out_of ld p).stem = p.stem ∧
    (small_out_of sd p).suffix = out_ext_of p ∧
    (large_out_of ld p).suffix = out_ext_of p ∧
    (strLower p.suffix ∈ supportedOut → out_ext_of p = strLower p.suffix) ∧
    (strLower p.suffix ∉ supportedOut → out_ext_of p = ".jpg") := by
  have h1 := out_path_parts sd p hp
  have h2 := out_path_parts ld p hp
  refine ⟨h1.2, h2.2, h1.1, h2.1, ?_, ?_⟩
  · intro hmem
    unfold out_ext_of
    dsimp only
    rw [if_pos hmem]
  · intro hmem
    unfold out_ext_of
    dsimp only
    rw [if_neg hmem]

/-- C8 as stated fails: for the supported but upper-case input extension
`.JPG` the output extension (`.jpg`) differs from the input's even though
the input format is supported as an output format. -/
theorem output_stem_invariant_cex :
    strLower (Path.suffix ⟨["images", "b.JPG"]⟩) ∈ supportedOut ∧
    (small_out_of ⟨["images", "small"]⟩ ⟨["images", "b.JPG"]⟩).stem
      = (⟨["images", "b.JPG"]⟩ : Path).stem ∧
    (small_out_of ⟨["images", "small"]⟩ ⟨["images", "b.JPG"]⟩).suffix
      ≠ (⟨["images", "b.JPG"]⟩ : Path).suffix := by decide

theorem output_stem_invariant_witness :
    (⟨["images", "a.png"]⟩ : Path).name ≠ "" ∧
    (small_out_of ⟨["images", "small"]⟩ ⟨["images", "a.png"]⟩).stem
      = (⟨["images", "a.png"]⟩ : Path).stem ∧
    (large_out_of ⟨["images", "large"]⟩ ⟨["images", "a.png"]⟩).stem
      = (⟨["images", "a.png"]⟩ : Path).stem :=
  ⟨by decide,
    (output_stem_invariant ⟨["images", "a.png"]⟩ ⟨["images", "small"]⟩
      ⟨["images", "large"]⟩ (by decide)).1,
    (output_stem_invariant ⟨["images", "a.png"]⟩ ⟨["images", "small"]⟩
      ⟨["images", "large"]⟩ (by decide)).2.1⟩

/-- C4 (amended): for an unsupported (case-insensitive) input extension both
computed outputs carry extension `.jpg`; for a supported one they carry the
lowercased input extension; and `save_image` returns the path actually
written, which differs from the requested path exactly when the `.jpg`
fallback triggers. -/
theorem save_image_fallback (p sd ld : Path) (hp : p.name ≠ "") :
    (strLower p.suffix ∉ supportedOut →
      (small_out_of sd p).suffix = ".jpg" ∧ (large_out_of ld p).suffix = ".jpg") ∧
    (strLower p.suffix ∈ supportedOut →
      (small_out_of sd p).suffix = strLower p.suffix ∧
      (large_out_of ld p).suffix = strLower p.suffix) ∧
    (∀ (img : PILImage) (q : Path),
      (save_image img q).2.1 = q ↔ strLower q.suffix ∈ supportedOut) := by
  have h1 := out_path_parts sd p hp
  have h2 := out_path_parts ld p hp
  refine ⟨?_, ?_, ?_⟩
  · intro hmem
    have he : out_ext_of p = ".jpg" := by
      unfold out_ext_of
      dsimp only
      rw [if_neg hmem]
    rw [← he]
    exact ⟨h1.1, h2.1⟩
  · intro hmem
    have he : out_ext_of p = strLower p.suffix := by
      unfold out_ext_of
      dsimp only
      rw [if_pos hmem]
    rw [← he]
    exact ⟨h1.1, h2.1⟩
  · intro img q
    constructor
    · intro heq
      by_contra hmem
      have hnotj : ¬(strLower q.suffix = ".jpg" ∨ strLower q.suffix = ".jpeg") := by
        intro hx
        apply hmem
        unfold supportedOut
        rcases hx with hx | hx <;> simp [hx]
      have hnotp : strLower q.suffix ≠ ".png" := by
        intro hx
        exact hmem (by unfold supportedOut; simp [hx])
      have hnotw : strLower q.suffix ≠ ".webp" := by
        intro hx
        exact hmem (by unfold supportedOut; simp [hx])
      have hres : (save_image img q).2.1 = Path.with_suffix q ".jpg" := by
        unfold save_image
        dsimp only
        rw [if_neg hnotj, if_neg hnotp, if_neg hnotw]
      rw [hres] at heq
      exact with_suffix_jpg_ne q hmem heq
    · intro hmem
      have hm4 : strLower q.suffix = ".jpg" ∨ strLower q.suffix = ".jpeg" ∨
          strLower q.suffix = ".png" ∨ strLower q.suffix = ".webp" := by
        simpa [supportedOut] using hmem
      unfold save_image
      dsimp only
      rcases hm4 with hx | hx | hx | hx
      · rw [if_pos (Or.inl hx)]
      · rw [if_pos (Or.inr hx)]
      · have hj : ¬(strLower q.suffix = ".jpg" ∨ strLower q.suffix = ".jpeg") := by
          rw [hx]; decide
        rw [if_neg hj, if_pos hx]
      · have hj : ¬(strLower q.suffix = ".jpg" ∨ strLower q.suffix = ".jpeg") := by
          rw [hx]; decide
        have hpg : strLower q.suffix ≠ ".png" := by rw [hx]; decide
        rw [if_neg hj, if_neg hpg, if_pos hx]

/-- C4's middle clause as stated fails: for the supported input extension
`.JPG` the computed output extension is the lowercased `.jpg`, not the input
extension itself. -/
theorem save_image_fallback_cex :
    strLower (Path.suffix ⟨["images", "a.JPG"]⟩) ∈ supportedOut ∧
    (small_out_of ⟨["images", "small2"]⟩ ⟨["images", "a.JPG"]⟩).suffix
      ≠ (⟨["images", "a.JPG"]⟩ : Path).suffix ∧
    (large_out_of ⟨["images", "large2"]⟩ ⟨["images", "a.JPG"]⟩).suffix
      ≠ (⟨["images", "a.JPG"]⟩ : Path).suffix := by decide

theorem save_image_fallback_witness :
    (⟨["images", "c.tiff"]⟩ : Path).name ≠ "" ∧
    strLower (Path.suffix ⟨["images", "c.tiff"]⟩) ∉ supportedOut ∧
    ((small_out_of ⟨["images", "small"]⟩ ⟨["images", "c.tiff"]⟩).suffix = ".jpg" ∧
      (large_out_of ⟨["images", "large"]⟩ ⟨["images", "c.tiff"]⟩).suffix = ".jpg") ∧
    ((save_image ⟨"RGB", 5, 5, 1⟩ ⟨["images", "small", "c.jpg"]⟩).2.1
        = ⟨["images", "small", "c.jpg"]⟩ ↔
      strLower (Path.suffix ⟨["images", "small", "c.jpg"]⟩) ∈ supportedOut) := by
  refine ⟨by decide, by decide, ?_, ?_⟩
  · exact (save_image_fallback ⟨["images", "c.tiff"]⟩ ⟨["images", "small"]⟩
      ⟨["images", "large"]⟩ (by decide)).1 (by decide)
  · exact (save_image_fallback ⟨["images", "c.tiff"]⟩ ⟨["images", "small"]⟩
      ⟨["images", "large"]⟩ (by decide)).2.2 ⟨"RGB", 5, 5, 1⟩ ⟨["images", "small", "c.jpg"]⟩

/-! ### The skip branch of process_image -/

/-- A fresh, decodable source is skipped and the filesystem is untouched. -/
theorem process_image_skips (fs : FState) (now : Int) (p sd ld : Path)
    (ms ml : Nat) (hf : Fresh fs sd ld p) :
    process_image fs now p sd ld ms ml = (Outcome.skipped p.name, fs) := by
  obtain ⟨f, im, g, g', hsrc, him, hsg, hmg, hlg, hml⟩ := hf
  have hb1 : fs.isFreshB (small_out_of sd p) f.mtime = true := by
    unfold FState.isFreshB FState.pexists FState.mtimeD
    rw [hsg]
    simp [hmg]
  have hb2 : fs.isFreshB (large_out_of ld p) f.mtime = true := by
    unfold FState.isFreshB FState.pexists FState.mtimeD
    rw [hlg]
    simp [hml]
  unfold process_image process_image_try
  rw [hsrc]
  dsimp only
  rw [him]
  dsimp only
  rw [hb1, hb2]
  rfl

/-- C1 (amended): for a source file that opens and decodes successfully,
when both computed output paths exist with modification timestamps at least
the source's (equality counts as fresh), `process_image` returns a skipped
outcome and no reprocessing occurs. -/
theorem process_image_fresh_skip (fs : FState) (now : Int) (p sd ld : Path)
    (ms ml : Nat) (f g g' : File) (im : PILImage)
    (hsrc : fs.files p = some f) (him : f.image = Except.ok im)
    (hsg : fs.files (small_out_of sd p) = some g) (hmg : f.mtime ≤ g.mtime)
    (hlg : fs.files (large_out_of ld p) = some g') (hml : f.mtime ≤ g'.mtime) :
    (process_image fs now p sd ld ms ml).1 = Outcome.skipped p.name := by
  rw [process_image_skips fs now p sd ld ms ml
    ⟨f, im, g, g', hsrc, him, hsg, hmg, hlg, hml⟩]

/-- C1 as stated fails on an undecodable source file: both outputs exist and
are at least as new as the source, yet the outcome is an error rather than
skipped, because `Image.open` runs before the freshness check. -/
theorem process_image_fresh_skip_cex :
    (badFs.files (small_out_of smallDir badSrc)).isSome = true ∧
    badFs.mtimeD (small_out_of smallDir badSrc) ≥ badFs.mtimeD badSrc ∧
    (badFs.files (large_out_of largeDir badSrc)).isSome = true ∧
    badFs.mtimeD (large_out_of largeDir badSrc) ≥ badFs.mtimeD badSrc ∧
    (process_image badFs 10 badSrc smallDir largeDir 1200 2400).1
      = Outcome.error "c.jpg" "broken data" ∧
    (process_image badFs 10 badSrc smallDir largeDir 1200 2400).1
      ≠ Outcome.skipped "c.jpg" := by decide

theorem process_image_fresh_skip_witness :
    (process_image freshFs 10 freshSrc smallDir largeDir 1200 2400).1
      = Outcome.skipped "a.jpg" :=
  process_image_fresh_skip freshFs 10 freshSrc smallDir largeDir 1200 2400
    ⟨3, Except.ok ⟨"RGB", 3000, 2000, 1⟩⟩
    ⟨7, Except.ok ⟨"RGB", 1200, 800, 1⟩⟩ ⟨8, Except.ok ⟨"RGB", 2400, 1600, 1⟩⟩
    ⟨"RGB", 3000, 2000, 1⟩
    (by decide) (by decide) (by decide) (by decide) (by decide) (by decide)

/-- C2: `process_image` never raises: an exception in the `try:` body is
converted by the handler into an error outcome carrying the file's name and
the exception message (with whatever filesystem state the raise left); a
completed body's result is passed through; and the batch loop of `main`
always yields exactly one outcome per scanned file, so no single-file
failure stops the run. -/
theorem process_image_catches (fs : FState) (now : Int) (p sd ld : Path)
    (ms ml : Nat) (imgs : List Path) :
    (∀ m fsE, process_image_try fs now p sd ld ms ml = Except.error (m, fsE) →
      process_image fs now p sd ld ms ml = (Outcome.error p.name m, fsE)) ∧
    (∀ r, process_image_try fs now p sd ld ms ml = Except.ok r →
      process_image fs now p sd ld ms ml = r) ∧
    (main_loop fs now imgs sd ld ms ml).1.length = imgs.length := by
  refine ⟨?_, ?_, ?_⟩
  · intro m fsE htry
    unfold process_image
    rw [htry]
  · intro r htry
    unfold process_image
    rw [htry]
  · induction imgs generalizing fs with
    | nil => rfl
    | cons q rest ih =>
      unfold main_loop
      dsimp only
      simp only [List.length_cons]
      rw [ih]

theorem process_image_catches_witness :
    process_image badFs 10 badSrc smallDir largeDir 1200 2400
      = (Outcome.error "c.jpg" "broken data", badFs) ∧
    (main_loop badFs 10 [badSrc] smallDir largeDir 1200 2400).1.length = 1 :=
  ⟨(process_image_catches badFs 10 badSrc smallDir largeDir 1200 2400 [badSrc]).1
      "broken data" badFs rfl,
    (process_image_catches badFs 10 badSrc smallDir largeDir 1200 2400 [badSrc]).2.2⟩

/-- C10: whenever `process_image` returns a skipped outcome it has performed
no filesystem writes: the returned state is exactly the input state, so both
derivative files and their timestamps are as they were before the call. -/
theorem process_image_skip_no_write (fs : FState) (now : Int) (p sd ld : Path)
    (ms ml : Nat) (s : String)
    (hsk : (process_image fs now p sd ld ms ml).1 = Outcome.skipped s) :
    (process_image fs now p sd ld ms ml).2 = fs := by
  unfold process_image process_image_try writePhase at hsk ⊢
  revert hsk
  cases hsrc : fs.files p with
  | none =>
    intro _
    rfl
  | some f =>
    dsimp only
    cases him : f.image with
    | error m =>
      intro _
      rfl
    | ok im =>
      split_ifs with hb
      · intro _
        rfl
      · dsimp only
        cases hs1 : save_fs fs now (resize_fit (exif_transpose im) ms)
            (small_out_of sd p) with
        | error m1 =>
          intro _
          rfl
        | ok r1 =>
          dsimp only
          cases hs2 : save_fs r1.2 now (resize_fit (exif_transpose im) ml)
              (large_out_of ld p) with
          | error m2 =>
            intro hsk
            dsimp only at hsk
            exact Outcome.noConfusion hsk
          | ok r2 =>
            intro hsk
            dsimp only at hsk
            exact Outcome.noConfusion hsk

theorem process_image_skip_no_write_witness :
    (process_image freshFs 10 freshSrc smallDir largeDir 1200 2400).1
      = Outcome.skipped "a.jpg" ∧
    (process_image freshFs 10 freshSrc smallDir largeDir 1200 2400).2 = freshFs :=
  ⟨by decide,
    process_image_skip_no_write freshFs 10 freshSrc smallDir largeDir 1200 2400
      "a.jpg" (by decide)⟩

/-! ### Frame lemmas used for the second-run idempotence claim -/

theorem small_out_suffix (sd p : Path) (hp : p.name ≠ "") :
    (small_out_of sd p).suffix = out_ext_of p :=
  (out_path_parts sd p hp).1

theorem large_out_suffix (ld p : Path) (hp : p.name ≠ "") :
    (large_out_of ld p).suffix = out_ext_of p :=
  (out_path_parts ld p hp).1

/-- On a path with a supported lower-case extension `save_image` keeps the
requested path. -/
theorem save_image_kept (img : PILImage) (out : Path)
    (hm : strLower out.suffix ∈ supportedOut) :
    (save_image img out).2.1 = out := by
  have hm4 : strLower out.suffix = ".jpg" ∨ strLower out.suffix = ".jpeg" ∨
      strLower out.suffix = ".png" ∨ strLower out.suffix = ".webp" := by
    simpa [supportedOut] using hm
  unfold save_image
  dsimp only
  rcases hm4 with hx | hx | hx | hx
  · rw [if_pos (Or.inl hx)]
  · rw [if_pos (Or.inr hx)]
  · have hj : ¬(strLower out.suffix = ".jpg" ∨ strLower out.suffix = ".jpeg") := by
      rw [hx]; decide
    rw [if_neg hj, if_pos hx]
  · have hj : ¬(strLower out.suffix = ".jpg" ∨ strLower out.suffix = ".jpeg") := by
      rw [hx]; decide
    have hpg : strLower out.suffix ≠ ".png" := by rw [hx]; decide
    rw [if_neg hj, if_neg hpg, if_pos hx]

theorem save_fs_eq (fs : FState) (now : Int) (img : PILImage) (out : Path)
    (hm : strLower out.suffix ∈ supportedOut) :
    save_fs fs now img out =
      match fs.saveFails out with
      | some m => Except.error m
      | none => Except.ok (out, fs.write out now (save_image img out).1) := by
  unfold save_fs
  dsimp only
  rw [save_image_kept img out hm]

theorem write_files (fs : FState) (p : Path) (now : Int) (img : PILImage) (r : Path) :
    (fs.write p now img).files r
      = if r = p then some ⟨now, Except.ok img⟩ else fs.files r := rfl

theorem write_saveFails (fs : FState) (p : Path) (now : Int) (img : PILImage) :
    (fs.write p now img).saveFails = fs.saveFails := rfl

/-- `process_image` writes at most the two computed output paths, stamps
every write with the current time, and never touches `saveFails`. -/
theorem process_image_writes (fs : FState) (now : Int) (p sd ld : Path) (ms ml : Nat)
    (hp : p.name ≠ "") :
    (∀ r, r ≠ small_out_of sd p → r ≠ large_out_of ld p →
      ((process_image fs now p sd ld ms ml).2).files r = fs.files r) ∧
    (∀ r, ((process_image fs now p sd ld ms ml).2).files r = fs.files r ∨
      ∃ im2, ((process_image fs now p sd ld ms ml).2).files r
        = some ⟨now, Except.ok im2⟩) ∧
    ((process_image fs now p sd ld ms ml).2).saveFails = fs.saveFails := by
  have hsm : strLower (small_out_of sd p).suffix ∈ supportedOut := by
    rw [small_out_suffix sd p hp, out_ext_lower]
    exact out_ext_mem p
  have hlgm : strLower (large_out_of ld p).suffix ∈ supportedOut := by
    rw [large_out_suffix ld p hp, out_ext_lower]
    exact out_ext_mem p
  unfold process_image process_image_try writePhase
  cases hsrc : fs.files p with
  | none => exact ⟨fun r _ _ => rfl, fun r => Or.inl rfl, rfl⟩
  | some f =>
    dsimp only
    cases him : f.image with
    | error m => exact ⟨fun r _ _ => rfl, fun r => Or.inl rfl, rfl⟩
    | ok im =>
      split_ifs with hb
      · exact ⟨fun r _ _ => rfl, fun r => Or.inl rfl, rfl⟩
      · dsimp only
        rw [save_fs_eq fs now (resize_fit (exif_transpose im) ms) (small_out_of sd p) hsm]
        cases hf1 : fs.saveFails (small_out_of sd p) with
        | some m1 => exact ⟨fun r _ _ => rfl, fun r => Or.inl rfl, rfl⟩
        | none =>
          dsimp only [FState.write]
          rw [save_fs_eq _ now (resize_fit (exif_transpose im) ml) (large_out_of ld p) hlgm]
          dsimp only
          cases hf2 : fs.saveFails (large_out_of ld p) with
          | some m2 =>
            dsimp only
            refine ⟨fun r hr1 hr2 => ?_, fun r => ?_, rfl⟩
            · exact if_neg hr1
            · by_cases hr : r = small_out_of sd p
              · subst hr
                exact Or.inr ⟨_, if_pos rfl⟩
              · exact Or.inl (if_neg hr)
          | none =>
            dsimp only [FState.write]
            refine ⟨fun r hr1 hr2 => ?_, fun r => ?_, rfl⟩
            · show (if r = large_out_of ld p then _ else
                if r = small_out_of sd p then _ else fs.files r) = fs.files r
              rw [if_neg hr2, if_neg hr1]
            · show (if r = large_out_of ld p then _ else
                if r = small_out_of sd p then _ else fs.files r) = fs.files r ∨ _
              by_cases hr2 : r = large_out_of ld p
              · rw [if_pos hr2]
                exact Or.inr ⟨_, rfl⟩
              · rw [if_neg hr2]
                by_cases hr1 : r = small_out_of sd p
                · rw [if_pos hr1]
                  exact Or.inr ⟨_, rfl⟩
                · rw [if_neg hr1]
                  exact Or.inl rfl

/-- After writing both derivatives at time `now`, a decodable source whose
path is distinct from both output paths is fresh. -/
theorem fresh_of_double_write (fs : FState) (sd ld p : Path) (now : Int)
    (i1 i2 : PILImage) (f : File) (im : PILImage)
    (hpo1 : p ≠ small_out_of sd p) (hpo2 : p ≠ large_out_of ld p)
    (hsrc : fs.files p = some f) (him : f.image = Except.ok im)
    (hmt : f.mtime ≤ now) :
    Fresh ((fs.write (small_out_of sd p) now i1).write (large_out_of ld p) now i2)
      sd ld p := by
  by_cases heq : small_out_of sd p = large_out_of ld p
  · refine ⟨f, im, ⟨now, Except.ok i2⟩, ⟨now, Except.ok i2⟩, ?_, him, ?_, hmt, ?_, hmt⟩
    · rw [write_files, write_files, if_neg hpo2, if_neg hpo1]
      exact hsrc
    · rw [write_files, if_pos heq]
    · rw [write_files, if_pos rfl]
  · refine ⟨f, im, ⟨now, Except.ok i1⟩, ⟨now, Except.ok i2⟩, ?_, him, ?_, hmt, ?_, hmt⟩
    · rw [write_files, write_files, if_neg hpo2, if_neg hpo1]
      exact hsrc
    · rw [write_files, write_files, if_neg heq, if_pos rfl]
    · rw [write_files, if_pos rfl]

/-- When `process_image` does not report an error, the source file ends up
fresh in the resulting state. -/
theorem process_image_not_error_fresh (fs : FState) (now : Int) (p sd ld : Path)
    (ms ml : Nat) (hp : p.name ≠ "")
    (hpo1 : p ≠ small_out_of sd p) (hpo2 : p ≠ large_out_of ld p)
    (hmt : ∀ f, fs.files p = some f → f.mtime ≤ now)
    (hne : ((process_image fs now p sd ld ms ml).1).isErr = false) :
    Fresh (process_image fs now p sd ld ms ml).2 sd ld p := by
  have hsm : strLower (small_out_of sd p).suffix ∈ supportedOut := by
    rw [small_out_suffix sd p hp, out_ext_lower]
    exact out_ext_mem p
  have hlgm : strLower (large_out_of ld p).suffix ∈ supportedOut := by
    rw [large_out_suffix ld p hp, out_ext_lower]
    exact out_ext_mem p
  unfold process_image process_image_try writePhase at hne ⊢
  revert hne
  cases hsrc : fs.files p with
  | none =>
    intro hne
    dsimp only [Outcome.isErr] at hne
    exact Bool.noConfusion hne
  | some f =>
    dsimp only
    cases him : f.image with
    | error m =>
      intro hne
      dsimp only [Outcome.isErr] at hne
      exact Bool.noConfusion hne
    | ok im =>
      split_ifs with hb
      · intro _
        rw [Bool.and_eq_true] at hb
        obtain ⟨hb1, hb2⟩ := hb
        unfold FState.isFreshB at hb1 hb2
        rw [Bool.and_eq_true] at hb1 hb2
        obtain ⟨he1, hm1⟩ := hb1
        obtain ⟨he2, hm2⟩ := hb2
        unfold FState.pexists at he1 he2
        obtain ⟨g, hg⟩ := Option.isSome_iff_exists.mp he1
        obtain ⟨g', hg'⟩ := Option.isSome_iff_exists.mp he2
        have hm1' : fs.mtimeD (small_out_of sd p) ≥ f.mtime := of_decide_eq_true hm1
        have hm2' : fs.mtimeD (large_out_of ld p) ≥ f.mtime := of_decide_eq_true hm2
        unfold FState.mtimeD at hm1' hm2'
        rw [hg] at hm1'
        rw [hg'] at hm2'
        exact ⟨f, im, g, g', hsrc, him, hg, hm1', hg', hm2'⟩
      · dsimp only
        rw [save_fs_eq fs now (resize_fit (exif_transpose im) ms) (small_out_of sd p) hsm]
        cases hf1 : fs.saveFails (small_out_of sd p) with
        | some m1 =>
          intro hne
          dsimp only [Outcome.isErr] at hne
          exact Bool.noConfusion hne
        | none =>
          dsimp only [FState.write]
          rw [save_fs_eq _ now (resize_fit (exif_transpose im) ml) (large_out_of ld p) hlgm]
          dsimp only
          cases hf2 : fs.saveFails (large_out_of ld p) with
          | some m2 =>
            intro hne
            dsimp only [Outcome.isErr] at hne
            exact Bool.noConfusion hne
          | none =>
            intro _
            exact fresh_of_double_write fs sd ld p now _ _ f im hpo1 hpo2 hsrc him
              (hmt f hsrc)

/-- Freshness of a file survives any interference that only overwrites files
with time-`now` stamps and leaves the source entry alone. -/
theorem fresh_preserved (fs fs' : FState) (sd ld p : Path) (now : Int)
    (hfr : Fresh fs sd ld p)
    (hkeep : fs'.files p = fs.files p)
    (hev : ∀ r, fs'.files r = fs.files r ∨
      ∃ im2, fs'.files r = some ⟨now, Except.ok im2⟩)
    (hmt : ∀ f, fs.files p = some f → f.mtime ≤ now) :
    Fresh fs' sd ld p := by
  obtain ⟨f, im, g, g', h1, h2, h3, h4, h5, h6⟩ := hfr
  have hmtf : f.mtime ≤ now := hmt f h1
  have hsmall : ∃ g2 : File, fs'.files (small_out_of sd p) = some g2 ∧
      f.mtime ≤ g2.mtime := by
    rcases hev (small_out_of sd p) with he | ⟨im2, he⟩
    · exact ⟨g, he.trans h3, h4⟩
    · exact ⟨⟨now, Except.ok im2⟩, he, hmtf⟩
  have hlarge : ∃ g2 : File, fs'.files (large_out_of ld p) = some g2 ∧
      f.mtime ≤ g2.mtime := by
    rcases hev (large_out_of ld p) with he | ⟨im2, he⟩
    · exact ⟨g', he.trans h5, h6⟩
    · exact ⟨⟨now, Except.ok im2⟩, he, hmtf⟩
  obtain ⟨g2, hg2, hm2⟩ := hsmall
  obtain ⟨g3, hg3, hm3⟩ := hlarge
  exact ⟨f, im, g2, g3, hkeep.trans h1, h2, hg2, hm2, hg3, hm3⟩

theorem main_loop_cons_fst (fs : FState) (now : Int) (q : Path) (rest : List Path)
    (sd ld : Path) (ms ml : Nat) :
    (main_loop fs now (q :: rest) sd ld ms ml).1
      = (process_image fs now q sd ld ms ml).1
        :: (main_loop (process_image fs now q sd ld ms ml).2 now rest sd ld ms ml).1 :=
  rfl

theorem main_loop_cons_snd (fs : FState) (now : Int) (q : Path) (rest : List Path)
    (sd ld : Path) (ms ml : Nat) :
    (main_loop fs now (q :: rest) sd ld ms ml).2
      = (main_loop (process_image fs now q sd ld ms ml).2 now rest sd ld ms ml).2 :=
  rfl

/-- Freshness of one file survives a whole batch over other files, provided
that file is not an output path of any of them. -/
theorem main_loop_preserves_fresh (imgs : List Path) (sd ld : Path) (ms ml : Nat)
    (now : Int) (q : Path) :
    ∀ fs : FState,
    (∀ p ∈ imgs, p.name ≠ "") →
    (∀ p ∈ imgs, q ≠ small_out_of sd p ∧ q ≠ large_out_of ld p) →
    (∀ f, fs.files q = some f → f.mtime ≤ now) →
    Fresh fs sd ld q →
    Fresh (main_loop fs now imgs sd ld ms ml).2 sd ld q := by
  induction imgs with
  | nil =>
    intro fs _ _ _ hfr
    exact hfr
  | cons p rest ih =>
    intro fs himg hdisj hmt hfr
    rw [main_loop_cons_snd]
    have hw := process_image_writes fs now p sd ld ms ml (himg p (List.mem_cons_self p rest))
    have hd := hdisj p (List.mem_cons_self p rest)
    have hkeep : ((process_image fs now p sd ld ms ml).2).files q = fs.files q :=
      hw.1 q hd.1 hd.2
    exact ih (process_image fs now p sd ld ms ml).2
      (fun r hr => himg r (List.mem_cons_of_mem p hr))
      (fun r hr => hdisj r (List.mem_cons_of_mem p hr))
      (fun f hf => hmt f (hkeep.symm.trans hf))
      (fresh_preserved fs _ sd ld q now hfr hkeep hw.2.1 hmt)

/-- A batch over files that are all fresh reports one skipped outcome per
file and leaves the filesystem untouched. -/
theorem main_loop_all_fresh_skips (imgs : List Path) (sd ld : Path) (ms ml : Nat)
    (now : Int) (fs : FState) :
    (∀ p ∈ imgs, Fresh fs sd ld p) →
    main_loop fs now imgs sd ld ms ml
      = (imgs.map (fun p => Outcome.skipped p.name), fs) := by
  induction imgs with
  | nil =>
    intro _
    rfl
  | cons p rest ih =>
    intro hfr
    have hskip := process_image_skips fs now p sd ld ms ml (hfr p (List.mem_cons_self p rest))
    unfold main_loop
    dsimp only
    rw [hskip]
    dsimp only
    rw [ih (fun r hr => hfr r (List.mem_cons_of_mem p hr))]
    rfl

/-- After a first run with no error outcomes, every scanned file is fresh. -/
theorem main_loop_run1_fresh (imgs : List Path) (sd ld : Path) (ms ml : Nat)
    (now : Int) :
    ∀ fs : FState,
    (∀ p ∈ imgs, p.name ≠ "") →
    (∀ p ∈ imgs, ∀ f, fs.files p = some f → f.mtime ≤ now) →
    (∀ p ∈ imgs, ∀ q ∈ imgs, p ≠ small_out_of sd q ∧ p ≠ large_out_of ld q) →
    (∀ o ∈ (main_loop fs now imgs sd ld ms ml).1, o.isErr = false) →
    ∀ p ∈ imgs, Fresh (main_loop fs now imgs sd ld ms ml).2 sd ld p := by
  induction imgs with
  | nil =>
    intro fs _ _ _ _ p hp
    cases hp
  | cons q rest ih =>
    intro fs himg hmt hdisj hnoerr
    have hqmem : q ∈ q :: rest := List.mem_cons_self q rest
    have hq_ne := himg q hqmem
    have hw := process_image_writes fs now q sd ld ms ml hq_ne
    have hnoerr_head : ((process_image fs now q sd ld ms ml).1).isErr = false := by
      apply hnoerr
      rw [main_loop_cons_fst]
      exact List.mem_cons_self _ _
    have hfr_q : Fresh (process_image fs now q sd ld ms ml).2 sd ld q :=
      process_image_not_error_fresh fs now q sd ld ms ml hq_ne
        (hdisj q hqmem q hqmem).1 (hdisj q hqmem q hqmem).2 (hmt q hqmem) hnoerr_head
    have hkeepq : ((process_image fs now q sd ld ms ml).2).files q = fs.files q :=
      hw.1 q (hdisj q hqmem q hqmem).1 (hdisj q hqmem q hqmem).2
    have hmt1 : ∀ p ∈ rest, ∀ f,
        ((process_image fs now q sd ld ms ml).2).files p = some f → f.mtime ≤ now := by
      intro p hp f hf
      rcases hw.2.1 p with he | ⟨im2, he⟩
      · exact hmt p (List.mem_cons_of_mem q hp) f (he.symm.trans hf)
      · rw [he] at hf
        cases Option.some.inj hf
        exact le_refl now
    have hnoerr1 : ∀ o ∈ (main_loop (process_image fs now q sd ld ms ml).2
        now rest sd ld ms ml).1, o.isErr = false := by
      intro o ho
      apply hnoerr
      rw [main_loop_cons_fst]
      exact List.mem_cons_of_mem _ ho
    intro p hp
    rw [main_loop_cons_snd]
    rcases List.mem_cons.mp hp with rfl | hp'
    · exact main_loop_preserves_fresh rest sd ld ms ml now p
        (process_image fs now p sd ld ms ml).2
        (fun r hr => himg r (List.mem_cons_of_mem p hr))
        (fun r hr => hdisj p hqmem r (List.mem_cons_of_mem p hr))
        (fun f hf => hmt p hqmem f (hkeepq.symm.trans hf))
        hfr_q
    · exact ih (process_image fs now q sd ld ms ml).2
        (fun r hr => himg r (List.mem_cons_of_mem q hr))
        hmt1
        (fun a ha b hb => hdisj a (List.mem_cons_of_mem q ha) b (List.mem_cons_of_mem q hb))
        hnoerr1 p hp'

/-- C6 (amended): when the first run reported no error outcome - and the
scanned files have nonempty names, no scanned source path coincides with a
computed output path, and no source is newer than the run - a second run
over the same files with unchanged sources yields a skipped outcome for
100% of the scanned files and leaves the filesystem untouched. -/
theorem second_run_all_skipped (imgs : List Path) (fs : FState) (now now2 : Int)
    (sd ld : Path) (ms ml : Nat)
    (himg : ∀ p ∈ imgs, p.name ≠ "")
    (hmt : ∀ p ∈ imgs, ∀ f, fs.files p = some f → f.mtime ≤ now)
    (hdisj : ∀ p ∈ imgs, ∀ q ∈ imgs, p ≠ small_out_of sd q ∧ p ≠ large_out_of ld q)
    (hnoerr : ∀ o ∈ (main_loop fs now imgs sd ld ms ml).1, o.isErr = false) :
    main_loop (main_loop fs now imgs sd ld ms ml).2 now2 imgs sd ld ms ml
      = (imgs.map (fun p => Outcome.skipped p.name),
        (main_loop fs now imgs sd ld ms ml).2) :=
  main_loop_all_fresh_skips imgs sd ld ms ml now2 _
    (main_loop_run1_fresh imgs sd ld ms ml now fs himg hmt hdisj hnoerr)

/-- C6 as stated fails: with an undecodable source file the first run
completes (counting one error) but the second run reports an error for that
file again, not 100% skipped outcomes. -/
theorem second_run_all_skipped_cex :
    (main_loop (main_loop badFs 10 [badSrc] smallDir largeDir 1200 2400).2
        11 [badSrc] smallDir largeDir 1200 2400).1
      ≠ [badSrc].map (fun p => Outcome.skipped p.name) := by decide

theorem second_run_all_skipped_witness :
    main_loop (main_loop startFs 10 [freshSrc] smallDir largeDir 1200 2400).2
        11 [freshSrc] smallDir largeDir 1200 2400
      = ([Outcome.skipped "a.jpg"],
        (main_loop startFs 10 [freshSrc] smallDir largeDir 1200 2400).2) := by
  have h := second_run_all_skipped [freshSrc] startFs 10 11 smallDir largeDir 1200 2400
    (by decide)
    (by
      intro p hp f hf
      simp only [List.mem_singleton] at hp
      subst hp
      have h0 : startFs.files freshSrc
          = some ⟨3, Except.ok ⟨"RGB", 3000, 2000, 1⟩⟩ := rfl
      rw [h0] at hf
      cases Option.some.inj hf
      decide)
    (by decide)
    (by decide)
  exact h

end MakeThumbs
